import Mathlib

/-!
Verification of the rs-lcr scraping client.

This file gives a shallow embedding, in Lean, of the pure computational core
of the rs-lcr repository (an LCR membership-records scraping client written
in Rust), and proves the behavioural properties claimed by its specification.

Embedding conventions:
* Rust `Vec<T>` and slices become `List`; `HashMap<K, V>` becomes either an
  association list (when iterated) or a lookup function `K → Option V` (when
  only queried); `HashSet<String>` becomes `Finset String`.
* Machine integers (`u8`, `u32`, `u64`, `usize`, `i64`) become `Nat`/`Int`;
  the counters involved never overflow on the inputs considered.  The one
  float computation (`(n as f64 / 33.0).floor() as u32` in
  `size_of_spreadsheet`) is exact integer flooring, embedded as `Nat`
  division.  Rust `i64` division truncates toward zero, embedded as
  `Int.tdiv`.
* Fallible operations return `Except Error _`; effectful collaborators
  (the headless browser's captured headers, the HTTP fetches) are passed in
  as explicit arguments so that the surrounding control flow of the source
  can be stated and proved.
* Functions whose only effect is printing (`print_age_buckets`, …) are
  embedded as functions returning the list/tuple of values each printed line
  displays.
-/

namespace RsLcr

/-- Header mapping captured at login (`type Headers = HashMap<String, String>`
in `client.rs`), embedded as an association list of captured entries. -/
abbrev Headers := List (String × String)

/-- Error taxonomy of `error.rs`: HTTP error, headless-browser error, IO/data
error.  Payloads are reduced to their display strings. -/
inductive Error where
  | Http : String → Error
  | Headless : String → Error
  | Io : String → Error
deriving DecidableEq, Repr

/-- `ClientOptions` from `client.rs`. -/
structure ClientOptions where
  headless : Bool
deriving DecidableEq, Repr

/-- `Client` from `client.rs`: credentials, unit number, the lazily captured
session headers, and options. -/
structure Client where
  username : String
  password : String
  unit_number : String
  headers : Option Headers
  options : ClientOptions
deriving DecidableEq, Repr

/-- `Client::new_with_options` from `client.rs`. -/
def Client.new_with_options (username password unit_number : String)
    (client_options : ClientOptions) : Client :=
  { username := username, password := password, unit_number := unit_number,
    headers := none, options := client_options }

/-- `Client::new` from `client.rs`. -/
def Client.new (username password unit_number : String) : Client :=
  Client.new_with_options username password unit_number { headless := true }

/-- The final step of `Client::login` in `client.rs` (lines 240–249): the
browser automation has produced a captured header mapping; an empty capture
is rejected as an invalid-data IO error, a non-empty one is returned as-is.
All earlier browser-automation steps are effectful and are summarised by the
`captured` argument (a failing step never reaches this point: it surfaces as
`Error.Headless`). -/
def login_result (captured : Headers) : Except Error Headers :=
  if captured.isEmpty then
    Except.error (Error.Io ("Header for making queries has no entries"))
  else
    Except.ok captured

/-- `Client::header_map` from `client.rs`: if no headers are stored yet, run
login (its outcome is passed in as `login_outcome`) and store the captured
headers; otherwise return the stored headers.  Returns the headers together
with the (possibly updated) client, making the Rust `&mut self` explicit. -/
def Client.header_map (c : Client) (login_outcome : Except Error Headers) :
    Except Error (Headers × Client) :=
  match c.headers with
  | none =>
    match login_outcome with
    | Except.error e => Except.error e
    | Except.ok h => Except.ok (h, { c with headers := some h })
  | some h => Except.ok (h, c)

/-- The header-attachment part of `Client::get` from `client.rs`: the issued
GET carries every stored session header, then an `Accept: application/json`
header.  Returns the header list attached to the request and the updated
client. -/
def Client.get (c : Client) (login_outcome : Except Error Headers) :
    Except Error (Headers × Client) :=
  match c.header_map login_outcome with
  | Except.error e => Except.error e
  | Except.ok (h, c') => Except.ok (h ++ [("Accept", "application/json")], c')

/-- `Image` from `data.rs`. -/
structure Image where
  token_url : String
deriving DecidableEq, Repr

/-- `PhotoInfo` from `data.rs`. -/
structure PhotoInfo where
  spoken_name : String
  image : Image
deriving DecidableEq, Repr

/-- `VisualPerson` from `data.rs`. -/
structure VisualPerson where
  name : String
  photo_url : String
deriving DecidableEq, Repr

/-- `Itertools::tuples::<(_, _)>` as used in `Client::visual_member_list`:
group a list into consecutive non-overlapping pairs, silently dropping a
final unpaired element. -/
def pair_up : List PhotoInfo → List (PhotoInfo × PhotoInfo)
  | household :: individual :: rest => (household, individual) :: pair_up rest
  | _ => []

/-- The per-pair body of the closure in `Client::visual_member_list`
(`client.rs` lines 124–139): prefer the individual's photo, fall back to the
household's photo, then to the fixed placeholder; the display name is the
household's spoken name. -/
def pair_to_visual (household individual : PhotoInfo) : VisualPerson :=
  let photo_url :=
    if individual.image.token_url ≠ "images/nophoto.svg" then
      individual.image.token_url
    else if household.image.token_url ≠ "images/nohousehold.svg" then
      household.image.token_url
    else
      "https://lcr.churchofjesuschrist.org/images/nohousehold.svg"
  { name := household.spoken_name, photo_url := photo_url }

/-- The pure reshaping part of `Client::visual_member_list` (`client.rs`
lines 113–142): pair the decoded photo records up as (household, individual)
and map each pair through the photo-selection rule. -/
def visual_member_list (photos : List PhotoInfo) : List VisualPerson :=
  (pair_up photos).map (fun hi => pair_to_visual hi.1 hi.2)

/-- `Address` from `data.rs`. -/
structure Address where
  address_lines : List String
deriving DecidableEq, Repr

/-- `MemberListPerson` from `data.rs`. -/
structure MemberListPerson where
  address : Option Address
  age : Nat
  convert : Bool
  email : Option String
  phone_number : Option String
  sex : String
  legacy_cmis_id : Nat
  name_given_preferred_local : String
  name_family_preferred_local : String
  name_list_preferred_local : String
deriving DecidableEq, Repr

/-- `MinisteringCompanionship` from `data.rs`. -/
structure MinisteringCompanionship where
  name : String
  legacy_cmis_id : Nat
deriving DecidableEq, Repr

/-- `MinisteringAssignment` from `data.rs`. -/
structure MinisteringAssignment where
  name : String
  legacy_cmis_id : Nat
deriving DecidableEq, Repr

/-- `Companionship` from `data.rs`. -/
structure Companionship where
  ministers : List MinisteringCompanionship
  assignments : Option (List MinisteringAssignment)
deriving DecidableEq, Repr

/-- `Companionship::collect_unique_names` from `data.rs` (lines 151–176).
The mutable `HashSet<String>` is embedded as a `Finset String` threaded
through; the `HashMap<u64, bool>` is embedded as a lookup function, with
`.get(..).unwrap_or(&true)` becoming `(females_by_id _).getD true`. -/
def Companionship.collect_unique_names (c : Companionship) (set : Finset String)
    (only_females : Bool) (females_by_id : Nat → Option Bool) : Finset String :=
  let set1 := c.ministers.foldl (fun s minister =>
    let is_female := (females_by_id minister.legacy_cmis_id).getD true
    if !only_females || is_female then insert minister.name s else s) set
  match c.assignments with
  | some assignments => assignments.foldl (fun s assignment =>
      let is_female := (females_by_id assignment.legacy_cmis_id).getD true
      if !only_females || is_female then insert assignment.name s else s) set1
  | none => set1

/-- Rust `u8::to_ascii_lowercase` on a byte value: ASCII uppercase letters
gain 32, all other values are unchanged. -/
def asciiLowerByte (b : Nat) : Nat :=
  if 65 ≤ b ∧ b ≤ 90 then b + 32 else b

/-- Rust `str::eq_ignore_ascii_case` as used in `print_gender_buckets`
(`main.rs` line 183): the two strings agree after ASCII-lowercasing each
unit.  (Embedded over scalar values; on the ASCII strings compared by the
source this coincides with Rust's byte-level comparison.) -/
def eqIgnoreAsciiCase (a b : String) : Bool :=
  a.data.map (fun ch => asciiLowerByte ch.toNat) ==
    b.data.map (fun ch => asciiLowerByte ch.toNat)

/-- The counting loop of `print_gender_buckets` (`main.rs` lines 178–206):
`(male, female)` tallies, a member counting as male exactly when
`member.sex.eq_ignore_ascii_case("m")`.  The printed table shows the two
counts. -/
def print_gender_buckets (members : List MemberListPerson) : Nat × Nat :=
  members.foldl (fun counts member =>
    if eqIgnoreAsciiCase member.sex ("m") then (counts.1 + 1, counts.2)
    else (counts.1, counts.2 + 1)) (0, 0)

/-- The per-age tally built by the loop of `print_age_buckets` (`main.rs`
lines 208–213): the `HashMap<u8, u8>` of counts, embedded as its lookup
function (ages never seen have count 0). -/
def age_counts (members : List MemberListPerson) : Nat → Nat :=
  members.foldl (fun map member =>
    fun a => if a = member.age then map a + 1 else map a) (fun _ => 0)

/-- The sorted key list of `print_age_buckets` (`main.rs` lines 215–216):
the map's keys — the distinct ages occurring — in ascending order
(`keys.sort()` in the source). -/
def age_keys (members : List MemberListPerson) : List Nat :=
  ((members.map (fun member => member.age)).dedup).insertionSort (· ≤ ·)

/-- `print_age_buckets` (`main.rs` lines 208–228), embedded as the list of
printed `(age, count)` lines in the order printed. -/
def print_age_buckets (members : List MemberListPerson) : List (Nat × Nat) :=
  (age_keys members).map (fun key => (key, age_counts members key))

/-- Rust `str::contains` (substring containment) as used in
`print_male_emails`. -/
def containsSubstr (s pat : String) : Bool :=
  decide (List.IsInfix pat.data s.data)

/-- `print_male_emails` (`main.rs` lines 166–176), embedded as the list of
printed emails: keep each member whose `sex` is exactly `"M"` and whose
email exists and does not contain `"DNC"`. -/
def print_male_emails (members : List MemberListPerson) : List String :=
  members.filterMap (fun m =>
    if m.sex ≠ "M" then none
    else m.email.filter (fun email => !(containsSubstr email ("DNC"))))

/-- Gregorian leap-year rule (the `time` crate's calendar). -/
def is_leap (y : Int) : Bool :=
  (y % 4 == 0 && y % 100 != 0) || y % 400 == 0

/-- Days in a month of the proleptic Gregorian calendar. -/
def days_in_month (y : Int) (m : Nat) : Nat :=
  if m = 2 then (if is_leap y then 29 else 28)
  else if m = 4 ∨ m = 6 ∨ m = 9 ∨ m = 11 then 30
  else 31

/-- Value of a digit string read in base 10. -/
def digitsToNat (cs : List Char) : Nat :=
  cs.foldl (fun acc ch => acc * 10 + (ch.toNat - 48)) 0

/-- `time::Date::parse` against the `[year][month][day]` format description,
as used by `MemberProfileIndividual::move_date` in `data.rs`: exactly eight
ASCII digits, split 4/2/2 into year, month and day, accepted only when they
name a real calendar date.  Returns `(year, month, day)`. -/
def parse_yyyymmdd (s : String) : Option (Int × Nat × Nat) :=
  let cs := s.data
  if cs.length = 8 ∧ cs.all Char.isDigit then
    let y : Int := Int.ofNat (digitsToNat (cs.take 4))
    let m := digitsToNat ((cs.drop 4).take 2)
    let d := digitsToNat (cs.drop 6)
    if 1 ≤ m ∧ m ≤ 12 ∧ 1 ≤ d ∧ d ≤ days_in_month y m then
      some (y, m, d)
    else
      none
  else
    none

/-- Serial day number of a Gregorian date, with day 0 = 1970-01-01 (the
`time` crate's date arithmetic: subtracting two `Date`s yields their exact
difference in days). -/
def days_from_civil (ymd : Int × Nat × Nat) : Int :=
  let y : Int := if ymd.2.1 ≤ 2 then ymd.1 - 1 else ymd.1
  let era : Int := Int.fdiv y 400
  let yoe : Int := y - era * 400
  let mp : Int := if ymd.2.1 ≤ 2 then Int.ofNat ymd.2.1 + 9 else Int.ofNat ymd.2.1 - 3
  let doy : Int := (153 * mp + 2) / 5 + Int.ofNat ymd.2.2 - 1
  let doe : Int := yoe * 365 + yoe / 4 - yoe / 100 + doy
  era * 146097 + doe - 719468

/-- `MemberProfileIndividual` from `data.rs`.  The parsed move-in date is
kept as the `(year, month, day)` triple `time::Date::parse` accepts. -/
structure MemberProfileIndividual where
  move_date : Option String
  mrn : Option String
  id : Nat
  endowed : Option Bool
deriving DecidableEq, Repr

/-- `MemberProfile` from `data.rs`. -/
structure MemberProfile where
  individual : MemberProfileIndividual
deriving DecidableEq, Repr

/-- `MemberProfileIndividual::move_date()` from `data.rs` (lines 79–85):
parse the optional 8-digit string, `None` when absent or unparseable. -/
def MemberProfileIndividual.moveDate (p : MemberProfileIndividual) :
    Option (Int × Nat × Nat) :=
  p.move_date.bind parse_yyyymmdd

/-- The `durations` computation of the `Report` subcommand (`main.rs` lines
145–154): for each profile with a parseable move-in date, the whole weeks
between that date and the current UTC date (`i64` division by 7, truncating
toward zero), integer-divided by 4.  `now` is the current UTC date's serial
day number. -/
def report_durations (now : Int) (profiles : List MemberProfile) : List Int :=
  profiles.filterMap (fun profile =>
    (profile.individual.moveDate).map (fun m =>
      Int.tdiv (Int.tdiv (now - days_from_civil m) 7) 4))

/-- The per-value tally built by the loop of `print_time_in_ward_buckets`
(`main.rs` lines 231–235), embedded as its lookup function. -/
def tenure_counts (month_vec : List Int) : Int → Nat :=
  month_vec.foldl (fun map num_months =>
    fun k => if k = num_months then map k + 1 else map k) (fun _ => 0)

/-- The sorted key list of `print_time_in_ward_buckets` (`main.rs` lines
237–238): the distinct values occurring, in ascending order
(`keys.sort()` in the source). -/
def tenure_keys (month_vec : List Int) : List Int :=
  (month_vec.dedup).insertionSort (· ≤ ·)

/-- The printing loop of `print_time_in_ward_buckets` (`main.rs` lines
247–263): walk the sorted keys carrying the running count; each line shows
`(months, count, running, percent)` with
`percent = running / total * 100`. -/
def tenure_rows (month_vec : List Int) (total_count : Nat) :
    List Int → Nat → List (Int × Nat × Nat × ℚ)
  | [], _ => []
  | key :: keys, running_count =>
    let num := tenure_counts month_vec key
    let r := running_count + num
    (key, num, r, (r : ℚ) / (total_count : ℚ) * 100) ::
      tenure_rows month_vec total_count keys r

/-- `print_time_in_ward_buckets` (`main.rs` lines 230–264), embedded as the
list of printed lines in order. -/
def print_time_in_ward_buckets (month_vec : List Int) :
    List (Int × Nat × Nat × ℚ) :=
  tenure_rows month_vec month_vec.length (tenure_keys month_vec) 0

/-- Rust's `collect::<Result<Vec<_>, _>>()`: succeed with all values when
every element succeeds, otherwise the first error. -/
def collect_results {ε α : Type} : List (Except ε α) → Except ε (List α)
  | [] => Except.ok []
  | x :: xs =>
    match x with
    | Except.error e => Except.error e
    | Except.ok a => (collect_results xs).map (fun rest => a :: rest)

/-- The `Commands::Report` arm of `main` (`main.rs` lines 130–157), from the
point where the member list is in hand: fetch every member's profile
(short-circuiting on the first error, as `collect` on `Result` does), then
derive the duration list and the tenure table.  `fetch` is the effectful
`client.member_profile(id)` call, passed in as a function of the id. -/
def report_command (members : List MemberListPerson)
    (fetch : Nat → Except Error MemberProfile) (now : Int) :
    Except Error (List (Int × Nat × Nat × ℚ)) :=
  match collect_results (members.map (fun m => fetch m.legacy_cmis_id)) with
  | Except.error e => Except.error e
  | Except.ok profiles =>
    Except.ok (print_time_in_ward_buckets (report_durations now profiles))

/-- `NUM_ROWS_PER_PRINTED_SHEET` from `visual_directory.rs`. -/
def NUM_ROWS_PER_PRINTED_SHEET : Nat := 11

/-- `NUM_COLS_PER_PRINTED_SHEET` from `visual_directory.rs`. -/
def NUM_COLS_PER_PRINTED_SHEET : Nat := 3

/-- `NUM_COLS_PER_PERSON` from `visual_directory.rs`. -/
def NUM_COLS_PER_PERSON : Nat := 2

/-- `size_of_spreadsheet` from `visual_directory.rs` (lines 131–148).  The
float round-trip `(n as f64 / 33.0).floor() as u32` is exact for every
member count a unit can have and is embedded as `Nat` division. -/
def size_of_spreadsheet (num_members : Nat) : Nat × Nat :=
  let num_columns :=
    NUM_COLS_PER_PRINTED_SHEET * NUM_COLS_PER_PERSON + (NUM_COLS_PER_PRINTED_SHEET - 1)
  let num_full_printed_pages :=
    num_members / (NUM_COLS_PER_PRINTED_SHEET * NUM_ROWS_PER_PRINTED_SHEET)
  let num_rows := num_full_printed_pages * NUM_ROWS_PER_PRINTED_SHEET
  let num_left := num_members - num_rows * NUM_COLS_PER_PRINTED_SHEET
  let num_rows' :=
    if num_left ≤ NUM_ROWS_PER_PRINTED_SHEET then num_rows + num_left
    else num_rows + NUM_ROWS_PER_PRINTED_SHEET
  (num_rows', num_columns)

/-- A concrete `MemberListPerson` with the fields the formatters consult;
the remaining fields are fixed throwaway values. -/
def sample_member (age : Nat) (sex : String) (email : Option String) :
    MemberListPerson :=
  { address := none, age := age, convert := false, email := email,
    phone_number := none, sex := sex, legacy_cmis_id := 0,
    name_given_preferred_local := "", name_family_preferred_local := "",
    name_list_preferred_local := "" }

end RsLcr

namespace RsLcr

/-! ## Helper lemmas -/

/-- Unfolding lemma: `pair_up` on a list with at least two elements. -/
theorem pair_up_cons_cons (a b : PhotoInfo) (rest : List PhotoInfo) :
    pair_up (a :: b :: rest) = (a, b) :: pair_up rest := rfl

/-- `pair_up` produces exactly one pair per two inputs, flooring. -/
theorem pair_up_length : ∀ photos : List PhotoInfo,
    (pair_up photos).length = photos.length / 2
  | [] => rfl
  | [_] => by simp [pair_up]
  | _ :: _ :: rest => by
    rw [pair_up_cons_cons, List.length_cons, List.length_cons, List.length_cons,
      pair_up_length rest]
    omega

/-- Appending one element to an even-length list does not change `pair_up`. -/
theorem pair_up_append_singleton : ∀ (photos : List PhotoInfo) (p : PhotoInfo),
    photos.length % 2 = 0 → pair_up (photos ++ [p]) = pair_up photos
  | [], _, _ => rfl
  | [_], _, h => by simp at h
  | a :: b :: rest, p, h => by
    have hr : rest.length % 2 = 0 := by
      simp only [List.length_cons] at h; omega
    simp only [List.cons_append, pair_up_cons_cons,
      pair_up_append_singleton rest p hr]

/-- On an odd-length list, `pair_up` ignores the final element. -/
theorem pair_up_dropLast (photos : List PhotoInfo)
    (h : photos.length % 2 = 1) : pair_up photos.dropLast = pair_up photos := by
  have hne : photos ≠ [] := by
    intro he
    rw [he] at h
    simp at h
  have heven : photos.dropLast.length % 2 = 0 := by
    rw [List.length_dropLast]
    omega
  conv_rhs => rw [← List.dropLast_append_getLast hne]
  rw [pair_up_append_singleton photos.dropLast (photos.getLast hne) heven]

/-- `collect_results` succeeds exactly when every element succeeds. -/
theorem collect_results_isOk {ε α : Type} (l : List (Except ε α)) :
    (collect_results l).isOk = true ↔ ∀ x ∈ l, x.isOk = true := by
  induction l with
  | nil => simp [collect_results, Except.isOk, Except.toBool]
  | cons x xs ih =>
    cases x with
    | error e => simp [collect_results, Except.isOk, Except.toBool]
    | ok a =>
      cases hxs : collect_results xs with
      | error e =>
        rw [hxs] at ih
        simp only [collect_results, hxs, Except.map] at *
        simpa [Except.isOk, Except.toBool] using ih
      | ok rest =>
        rw [hxs] at ih
        simp only [collect_results, hxs, Except.map] at *
        simpa [Except.isOk, Except.toBool] using ih

/-- `collect_results` returns the first error when everything before it
succeeds. -/
theorem collect_results_first_error {ε α : Type} :
    ∀ (pre : List (Except ε α)) (post : List (Except ε α)) (e : ε),
      (∀ y ∈ pre, y.isOk = true) →
      collect_results (pre ++ Except.error e :: post) = Except.error e
  | [], _, _, _ => rfl
  | y :: pre, post, e, hok => by
    cases y with
    | error e' =>
      have := hok (Except.error e') (by simp)
      simp [Except.isOk, Except.toBool] at this
    | ok a =>
      have hpre : ∀ z ∈ pre, z.isOk = true := fun z hz => hok z (by simp [hz])
      have hrec := collect_results_first_error pre post e hpre
      simp only [List.cons_append, collect_results, List.append_eq, hrec,
        Except.map]

/-- Membership in a left fold that conditionally inserts one name per
element. -/
theorem mem_foldl_insert {A : Type} (nm : A → String) (p : A → Bool) :
    ∀ (l : List A) (s : Finset String) (x : String),
      (x ∈ l.foldl (fun acc a => if p a then insert (nm a) acc else acc) s) ↔
        (x ∈ s ∨ ∃ a ∈ l, p a = true ∧ nm a = x) := by
  intro l
  induction l with
  | nil =>
    intro s x
    simp
  | cons a l ih =>
    intro s x
    simp only [List.foldl_cons]
    rw [ih]
    by_cases hp : p a
    · simp only [hp, if_true, Finset.mem_insert, List.mem_cons]
      constructor
      · rintro ((rfl | hx) | ⟨b, hb, hpb, rfl⟩)
        · exact Or.inr ⟨a, Or.inl rfl, hp, rfl⟩
        · exact Or.inl hx
        · exact Or.inr ⟨b, Or.inr hb, hpb, rfl⟩
      · rintro (hx | ⟨b, (rfl | hb), hpb, rfl⟩)
        · exact Or.inl (Or.inr hx)
        · exact Or.inl (Or.inl rfl)
        · exact Or.inr ⟨b, hb, hpb, rfl⟩
    · simp only [hp, if_false, List.mem_cons]
      constructor
      · rintro (hx | ⟨b, hb, hpb, rfl⟩)
        · exact Or.inl hx
        · exact Or.inr ⟨b, Or.inr hb, hpb, rfl⟩
      · rintro (hx | ⟨b, (rfl | hb), hpb, rfl⟩)
        · exact Or.inl hx
        · exact absurd hpb (by simpa using hp)
        · exact Or.inr ⟨b, hb, hpb, rfl⟩

/-- Characters with equal scalar values are equal. -/
theorem char_eq_of_toNat_eq {c d : Char} (h : c.toNat = d.toNat) : c = d := by
  apply Char.eq_of_val_eq
  apply UInt32.eq_of_toBitVec_eq
  apply BitVec.eq_of_toNat_eq
  simpa [Char.toNat] using h

/-- A character ASCII-lowercases to `'m'` (scalar 109) exactly when it is
`'m'` or `'M'`. -/
theorem asciiLowerByte_eq_m_iff (c : Char) :
    asciiLowerByte c.toNat = 109 ↔ c = 'm' ∨ c = 'M' := by
  constructor
  · intro h
    unfold asciiLowerByte at h
    split at h
    · right
      exact char_eq_of_toNat_eq
        (show c.toNat = ('M').toNat by
          rw [show ('M').toNat = 77 from rfl]; omega)
    · left
      exact char_eq_of_toNat_eq
        (show c.toNat = ('m').toNat by
          rw [show ('m').toNat = 109 from rfl]; omega)
  · rintro (h | h) <;> subst h <;> decide

/-- A string equals `"m"` ASCII-case-insensitively exactly when it is `"m"`
or `"M"`. -/
theorem eqIgnoreAsciiCase_m_iff (s : String) :
    eqIgnoreAsciiCase s ("m") = true ↔ s = "m" ∨ s = "M" := by
  unfold eqIgnoreAsciiCase
  rw [show ("m").data.map (fun ch => asciiLowerByte ch.toNat) = [109] from rfl,
    beq_iff_eq]
  have hdata : ∀ t : String, s = t ↔ s.data = t.data :=
    fun t => ⟨fun h => by rw [h], String.ext⟩
  rw [hdata ("m"), hdata ("M"),
    show ("m").data = ['m'] from rfl, show ("M").data = ['M'] from rfl]
  cases hs : s.data with
  | nil => simp
  | cons c rest =>
    cases rest with
    | nil =>
      simpa using asciiLowerByte_eq_m_iff c
    | cons c2 rest2 => simp

/-- `eqIgnoreAsciiCase · "m"` decides membership in `{"m", "M"}`. -/
theorem eqIgnoreAsciiCase_m_eq_decide (s : String) :
    eqIgnoreAsciiCase s ("m") = decide (s = "m" ∨ s = "M") := by
  have h := eqIgnoreAsciiCase_m_iff s
  by_cases hd : s = "m" ∨ s = "M"
  · simp only [hd, iff_true] at h
    simp [h, hd]
  · simp only [hd, iff_false] at h
    simp only [Bool.not_eq_true] at h
    simp [h, hd]

/-- The age-tally fold, with an arbitrary accumulator. -/
theorem age_counts_go (members : List MemberListPerson) :
    ∀ (f : Nat → Nat) (a : Nat),
      (members.foldl (fun map member =>
        fun x => if x = member.age then map x + 1 else map x) f) a =
        f a + (members.map (fun m => m.age)).count a := by
  induction members with
  | nil =>
    intro f a
    simp
  | cons m ms ih =>
    intro f a
    simp only [List.foldl_cons, List.map_cons, List.count_cons, ih]
    by_cases h : a = m.age
    · simp [h]
      omega
    · simp only [if_neg h]
      have : ¬(m.age == a) = true := by simpa using fun he => h he.symm
      simp [this]

/-- `age_counts` counts the members of each exact age. -/
theorem age_counts_eq (members : List MemberListPerson) (a : Nat) :
    age_counts members a = (members.map (fun m => m.age)).count a := by
  unfold age_counts
  rw [age_counts_go]
  omega

/-- The gender-tally fold, with an arbitrary accumulator. -/
theorem gender_go (members : List MemberListPerson) :
    ∀ p q : Nat,
      members.foldl (fun counts member =>
        if eqIgnoreAsciiCase member.sex ("m") then (counts.1 + 1, counts.2)
        else (counts.1, counts.2 + 1)) (p, q) =
      (p + (members.filter
          (fun m => eqIgnoreAsciiCase m.sex ("m"))).length,
       q + (members.filter
          (fun m => !eqIgnoreAsciiCase m.sex ("m"))).length) := by
  induction members with
  | nil =>
    intro p q
    simp
  | cons m ms ih =>
    intro p q
    by_cases h : eqIgnoreAsciiCase m.sex ("m") = true
    · simp [List.foldl_cons, List.filter_cons, h, ih, Prod.ext_iff] <;> omega
    · simp only [Bool.not_eq_true] at h
      simp [List.foldl_cons, List.filter_cons, h, ih, Prod.ext_iff] <;> omega

/-- Percentages of a fixed non-negative total are monotone in the count. -/
theorem pct_mono (total : Nat) {a b : Nat} (h : a ≤ b) :
    (a : ℚ) / (total : ℚ) * 100 ≤ (b : ℚ) / (total : ℚ) * 100 := by
  have hab : (a : ℚ) ≤ (b : ℚ) := by exact_mod_cast h
  have ht : (0 : ℚ) ≤ (total : ℚ) := by positivity
  have hdiv := div_le_div_of_nonneg_right hab ht
  nlinarith

/-- Along `tenure_rows` the running count and the printed percentage are
monotonically non-decreasing, and every row's running count and percentage
dominate the incoming accumulator. -/
theorem tenure_rows_mono (month_vec : List Int) (total : Nat) :
    ∀ (keys : List Int) (running : Nat),
      List.Chain' (· ≤ ·)
        ((tenure_rows month_vec total keys running).map (fun row => row.2.2.1)) ∧
      List.Chain' (· ≤ ·)
        ((tenure_rows month_vec total keys running).map (fun row => row.2.2.2)) ∧
      (∀ row ∈ tenure_rows month_vec total keys running,
        running ≤ row.2.2.1 ∧
          (running : ℚ) / (total : ℚ) * 100 ≤ row.2.2.2) := by
  intro keys
  induction keys with
  | nil =>
    intro running
    simp [tenure_rows]
  | cons key keys ih =>
    intro running
    obtain ⟨ih1, ih2, ih3⟩ := ih (running + tenure_counts month_vec key)
    simp only [tenure_rows, List.map_cons]
    refine ⟨?_, ?_, ?_⟩
    · cases hrest : tenure_rows month_vec total keys
        (running + tenure_counts month_vec key) with
      | nil => simp [hrest]
      | cons row rest =>
        rw [hrest] at ih1 ih3
        rw [List.map_cons, List.chain'_cons]
        exact ⟨(ih3 row (by simp)).1, ih1⟩
    · cases hrest : tenure_rows month_vec total keys
        (running + tenure_counts month_vec key) with
      | nil => simp [hrest]
      | cons row rest =>
        rw [hrest] at ih2 ih3
        rw [List.map_cons, List.chain'_cons]
        exact ⟨(ih3 row (by simp)).2, ih2⟩
    · intro row hrow
      rcases List.mem_cons.mp hrow with rfl | hmem
      · exact ⟨Nat.le_add_right _ _, pct_mono total (Nat.le_add_right _ _)⟩
      · obtain ⟨h1, h2⟩ := ih3 row hmem
        exact ⟨le_trans (Nat.le_add_right _ _) h1,
          le_trans (pct_mono total (Nat.le_add_right _ _)) h2⟩

/-! ## Claim theorems -/

/-- C3: `collect_unique_names` produces the names of all ministers and
assignments of the companionship (on top of the incoming set) when
`only_females` is false; when `only_females` is true it adds exactly the
names whose `legacy_cmis_id` maps to `female = true` in the auxiliary
id-to-female map, ids absent from the map counting as female; in
particular a companionship with minister A (female) and minister B (not
female) with `only_females = true` yields a set containing only A. -/
theorem C3_collect_unique_names_filter (c : Companionship)
    (set : Finset String) (only_females : Bool)
    (females_by_id : Nat → Option Bool) :
    (∀ name, name ∈ c.collect_unique_names set only_females females_by_id ↔
      (name ∈ set ∨
        (∃ mm ∈ c.ministers,
          (only_females = true →
            (females_by_id mm.legacy_cmis_id).getD true = true) ∧
          mm.name = name) ∨
        (∃ assignments, c.assignments = some assignments ∧
          ∃ a ∈ assignments,
            (only_females = true →
              (females_by_id a.legacy_cmis_id).getD true = true) ∧
            a.name = name))) ∧
    Companionship.collect_unique_names
      { ministers := [{ name := "A", legacy_cmis_id := 1 },
                      { name := "B", legacy_cmis_id := 2 }],
        assignments := none }
      ∅ true
      (fun i => if i = 1 then some true else if i = 2 then some false else none)
      = {"A"} := by
  constructor
  · intro name
    have hcond : ∀ i : Nat,
        ((!only_females || (females_by_id i).getD true) = true) ↔
          (only_females = true → (females_by_id i).getD true = true) := by
      intro i
      cases only_females <;> simp
    have hmin := mem_foldl_insert
      (fun mm : MinisteringCompanionship => mm.name)
      (fun mm : MinisteringCompanionship =>
        !only_females || (females_by_id mm.legacy_cmis_id).getD true)
      c.ministers set name
    cases hassign : c.assignments with
    | none =>
      simp only [Companionship.collect_unique_names, hassign]
      refine Iff.trans hmin ?_
      simp only [hcond]
      constructor
      · rintro (hx | hx)
        · exact Or.inl hx
        · exact Or.inr (Or.inl hx)
      · rintro (hx | hx | ⟨_, hfalse, _⟩)
        · exact Or.inl hx
        · exact Or.inr hx
        · cases hfalse
    | some assignments =>
      simp only [Companionship.collect_unique_names, hassign]
      refine Iff.trans (mem_foldl_insert
        (fun a : MinisteringAssignment => a.name)
        (fun a : MinisteringAssignment =>
          !only_females || (females_by_id a.legacy_cmis_id).getD true)
        assignments _ name) ?_
      refine Iff.trans (or_congr hmin Iff.rfl) ?_
      simp only [hcond]
      constructor
      · rintro ((hx | hx) | hx)
        · exact Or.inl hx
        · exact Or.inr (Or.inl hx)
        · exact Or.inr (Or.inr ⟨assignments, rfl, hx⟩)
      · rintro (hx | hx | ⟨asg, hasg, hx⟩)
        · exact Or.inl (Or.inl hx)
        · exact Or.inl (Or.inr hx)
        · cases hasg
          exact Or.inr hx
  · decide

/-- C4: for every login outcome in which the captured header mapping is
empty, the login call returns a data error and never returns successfully;
equivalently, whenever login returns `Ok(headers)`, the headers mapping is
non-empty (and is the captured mapping itself). -/
theorem C4_login_rejects_empty_headers (captured : Headers) :
    (captured = [] → login_result captured =
      Except.error (Error.Io ("Header for making queries has no entries"))) ∧
    (∀ h, login_result captured = Except.ok h → h ≠ [] ∧ h = captured) := by
  constructor
  · intro hc
    subst hc
    rfl
  · intro h hok
    unfold login_result at hok
    split at hok
    · cases hok
    · next hne =>
      cases hok
      refine ⟨?_, rfl⟩
      intro hnil
      subst hnil
      simp at hne

/-- C5: the first report call on a `Client` triggers login and stores the
captured headers; a subsequent call returns the stored headers without
consulting the login outcome and leaves the client unchanged (the stored
mapping, once `some`, is never modified or cleared); and every issued GET
attaches all stored headers plus an `Accept: application/json` header. -/
theorem C5_session_headers_cached (c : Client) (o : Except Error Headers) :
    (c.headers = none → c.header_map o =
      o.map (fun h => (h, { c with headers := some h }))) ∧
    (∀ h, c.headers = some h → c.header_map o = Except.ok (h, c)) ∧
    (∀ h c', c.header_map o = Except.ok (h, c') →
      c'.headers = some h ∧
      c.get o = Except.ok (h ++ [("Accept", "application/json")], c')) := by
  refine ⟨?_, ?_, ?_⟩
  · intro hn
    simp only [Client.header_map, hn]
    cases o <;> rfl
  · intro h hs
    simp only [Client.header_map, hs]
  · intro h c' hok
    refine ⟨?_, ?_⟩
    · rcases hc : c.headers with _ | hh
      · simp only [Client.header_map, hc] at hok
        cases o with
        | error e => cases hok
        | ok hh2 =>
          simp only [Except.ok.injEq, Prod.mk.injEq] at hok
          rcases hok with ⟨h1, h2⟩
          subst h1
          rw [← h2]
      · simp only [Client.header_map, hc] at hok
        simp only [Except.ok.injEq, Prod.mk.injEq] at hok
        rcases hok with ⟨h1, h2⟩
        subst h1
        rw [← h2, hc]
    · simp only [Client.get, hok]

/-- C6: the age-bucket formatter counts members per exact integer age and
prints buckets in ascending key order, one line per distinct age; the
gender-bucket formatter counts a member as Male exactly when its sex
string equals "m" case-insensitively — that is, when it is `"m"` or `"M"`
— and as Female otherwise; in particular ages `[10, 10, 12]` give buckets
`{10 ↦ 2, 12 ↦ 1}` and sexes `["M", "F", "m"]` give
`{Male ↦ 2, Female ↦ 1}`. -/
theorem C6_age_and_gender_buckets :
    (∀ (members : List MemberListPerson) (a : Nat),
      age_counts members a = (members.map (fun m => m.age)).count a) ∧
    (∀ members : List MemberListPerson,
      List.Pairwise (fun p q : Nat × Nat => p.1 ≤ q.1)
        (print_age_buckets members)) ∧
    (∀ (members : List MemberListPerson) (a n : Nat),
      (a, n) ∈ print_age_buckets members ↔
        a ∈ members.map (fun m => m.age) ∧
          n = (members.map (fun m => m.age)).count a) ∧
    (∀ members : List MemberListPerson,
      print_gender_buckets members =
        ((members.filter (fun m => decide (m.sex = "m" ∨ m.sex = "M"))).length,
         (members.filter (fun m => !decide (m.sex = "m" ∨ m.sex = "M"))).length)) ∧
    print_age_buckets [sample_member 10 ("M") none, sample_member 10 ("F") none,
      sample_member 12 ("m") none] = [(10, 2), (12, 1)] ∧
    print_gender_buckets [sample_member 10 ("M") none, sample_member 10 ("F") none,
      sample_member 12 ("m") none] = (2, 1) := by
  refine ⟨fun members a => age_counts_eq members a, ?_, ?_, ?_, by decide, by decide⟩
  · intro members
    unfold print_age_buckets
    have hs : List.Sorted (· ≤ ·) (age_keys members) := by
      unfold age_keys
      exact List.sorted_insertionSort _ _
    exact @List.Pairwise.map (Nat × Nat) Nat (· ≤ ·) (age_keys members)
      (fun p q => p.1 ≤ q.1) (fun key => (key, age_counts members key))
      (fun a b hab => hab) hs
  · intro members a n
    simp only [print_age_buckets]
    constructor
    · intro hmem
      rcases List.mem_map.mp hmem with ⟨k, hk, hkeq⟩
      obtain ⟨rfl, hn⟩ : k = a ∧ age_counts members k = n := by
        simpa [Prod.ext_iff] using hkeq
      have hk2 : k ∈ (members.map (fun m => m.age)).dedup :=
        ((List.perm_insertionSort (· ≤ ·) _).mem_iff).mp
          (by simpa [age_keys] using hk)
      exact ⟨List.mem_dedup.mp hk2, by rw [← hn, age_counts_eq]⟩
    · rintro ⟨ha, rfl⟩
      refine List.mem_map.mpr ⟨a, ?_, ?_⟩
      · have hd : a ∈ (members.map (fun m => m.age)).dedup :=
          List.mem_dedup.mpr ha
        simpa [age_keys] using
          ((List.perm_insertionSort (· ≤ ·) _).mem_iff).mpr hd
      · rw [age_counts_eq]
  · intro members
    unfold print_gender_buckets
    rw [gender_go members 0 0]
    have h1 : members.filter (fun m => eqIgnoreAsciiCase m.sex ("m")) =
        members.filter (fun m => decide (m.sex = "m" ∨ m.sex = "M")) :=
      List.filter_congr (fun m _ => eqIgnoreAsciiCase_m_eq_decide m.sex)
    have h2 : members.filter (fun m => !eqIgnoreAsciiCase m.sex ("m")) =
        members.filter (fun m => !decide (m.sex = "m" ∨ m.sex = "M")) :=
      List.filter_congr (fun m _ =>
        congrArg (fun b => !b) (eqIgnoreAsciiCase_m_eq_decide m.sex))
    rw [h1, h2]
    simp

/-- C7: the tenure formatter derives each month value as whole weeks
between the parsed 8-digit YYYYMMDD move-in date and the current UTC date
(both divisions truncating toward zero as Rust `i64` division does),
integer-divided by 4; profiles without a parseable move-in date contribute
nothing; over the sorted bucket keys the running cumulative count and the
printed percentage are monotonically non-decreasing; and `"20230101"`
against the fixed now 2023-12-31 yields the deterministic value 13. -/
theorem C7_tenure_derivation_and_monotone :
    (∀ (now : Int) (profiles : List MemberProfile),
      report_durations now profiles = profiles.filterMap (fun profile =>
        match profile.individual.move_date with
        | none => none
        | some s => (parse_yyyymmdd s).map (fun m =>
            Int.tdiv (Int.tdiv (now - days_from_civil m) 7) 4))) ∧
    (∀ month_vec : List Int,
      List.Chain' (· ≤ ·)
        ((print_time_in_ward_buckets month_vec).map (fun row => row.2.2.1)) ∧
      List.Chain' (· ≤ ·)
        ((print_time_in_ward_buckets month_vec).map (fun row => row.2.2.2))) ∧
    report_durations (days_from_civil (2023, 12, 31))
      [{ individual :=
          { move_date := some ("20230101"), mrn := none, id := 0,
            endowed := none } }] = [13] := by
  refine ⟨?_, ?_, by decide⟩
  · intro now profiles
    unfold report_durations
    congr 1
    funext profile
    unfold MemberProfileIndividual.moveDate
    cases profile.individual.move_date <;> rfl
  · intro month_vec
    have hmain := tenure_rows_mono month_vec month_vec.length
      (tenure_keys month_vec) 0
    exact ⟨hmain.1, hmain.2.1⟩

/-- C8: the batch `report` operation fetches a profile for every member;
it succeeds exactly when every per-member profile fetch succeeds, and if
the fetch for any single member fails (every member before it succeeding),
the whole operation returns that member's error — no partial-failure
accumulation, no tenure bucketing. -/
theorem C8_report_no_partial_failure (members : List MemberListPerson)
    (fetch : Nat → Except Error MemberProfile) (now : Int) :
    ((report_command members fetch now).isOk = true ↔
      ∀ m ∈ members, (fetch m.legacy_cmis_id).isOk = true) ∧
    (∀ pre m post e, members = pre ++ m :: post →
      (∀ m' ∈ pre, (fetch m'.legacy_cmis_id).isOk = true) →
      fetch m.legacy_cmis_id = Except.error e →
      report_command members fetch now = Except.error e) := by
  constructor
  · have hiff := collect_results_isOk (members.map (fun m => fetch m.legacy_cmis_id))
    rw [List.forall_mem_map] at hiff
    cases hc : collect_results (members.map (fun m => fetch m.legacy_cmis_id)) with
    | error e =>
      rw [hc] at hiff
      simp only [report_command, hc]
      simpa [Except.isOk, Except.toBool] using hiff
    | ok profiles =>
      rw [hc] at hiff
      simp only [report_command, hc]
      simpa [Except.isOk, Except.toBool] using hiff
  · intro pre m post e hsplit hok herr
    have hmap : members.map (fun m => fetch m.legacy_cmis_id) =
        (pre.map (fun m => fetch m.legacy_cmis_id)) ++
          Except.error e :: (post.map (fun m => fetch m.legacy_cmis_id)) := by
      rw [hsplit]
      simp [herr]
    have hpre : ∀ y ∈ pre.map (fun m => fetch m.legacy_cmis_id),
        y.isOk = true := by
      intro y hy
      rcases List.mem_map.mp hy with ⟨m', hm', rfl⟩
      exact hok m' hm'
    simp only [report_command, hmap,
      collect_results_first_error _ _ _ hpre]

/-- C1: for every member count `N ≥ 0`, with `rows_per_page = 11`,
`cols_per_page = 3`, `cols_per_person = 2`, `size_of_spreadsheet N` is
exactly `(rows, 8)` where `8 = cols_per_page * cols_per_person +
(cols_per_page - 1)` and `rows = ⌊N / (cols_per_page * rows_per_page)⌋ *
rows_per_page` plus the remaining member count capped at `rows_per_page`;
in particular `N = 0, 1, 11, 33, 34` give rows `0, 1, 11, 11, 12`. -/
theorem C1_size_of_spreadsheet_grid :
    (∀ N : Nat, size_of_spreadsheet N =
        (N / (3 * 11) * 11 + min (N % (3 * 11)) 11, 3 * 2 + (3 - 1))) ∧
    size_of_spreadsheet 0 = (0, 8) ∧ size_of_spreadsheet 1 = (1, 8) ∧
    size_of_spreadsheet 11 = (11, 8) ∧ size_of_spreadsheet 33 = (11, 8) ∧
    size_of_spreadsheet 34 = (12, 8) := by
  refine ⟨fun N => ?_, rfl, rfl, rfl, rfl, rfl⟩
  simp only [size_of_spreadsheet, NUM_ROWS_PER_PRINTED_SHEET,
    NUM_COLS_PER_PRINTED_SHEET, NUM_COLS_PER_PERSON, Prod.mk.injEq]
  refine ⟨?_, by norm_num⟩
  have h := Nat.div_add_mod N 33
  have h33 : (3 : Nat) * 11 = 33 := by norm_num
  rw [h33]
  split <;> omega

/-- C2: for every (household, individual) photo-record pair processed by
`visual_member_list`, the output record's photo URL is the individual's
token URL when that token is not the no-individual-photo sentinel;
otherwise the household's token URL when that token is not the
no-household-photo sentinel; otherwise the fixed placeholder URL; and the
output record's name is always the household's spoken name. -/
theorem C2_visual_pairing_rule (photos : List PhotoInfo) :
    visual_member_list photos = (pair_up photos).map (fun hi =>
      { name := hi.1.spoken_name
        photo_url :=
          if hi.2.image.token_url = "images/nophoto.svg" then
            (if hi.1.image.token_url = "images/nohousehold.svg" then
              "https://lcr.churchofjesuschrist.org/images/nohousehold.svg"
            else hi.1.image.token_url)
          else hi.2.image.token_url }) := by
  unfold visual_member_list
  apply List.map_congr_left
  intro hi _
  unfold pair_to_visual
  by_cases h1 : hi.2.image.token_url = "images/nophoto.svg" <;>
    by_cases h2 : hi.1.image.token_url = "images/nohousehold.svg" <;>
      simp [h1, h2]

/-- C9: for every photo list of length `n` returned by the endpoint,
`visual_member_list` produces exactly `⌊n / 2⌋` display records; when `n`
is odd the final unpaired photo record is silently dropped (the output
equals the output on the list without its last element) rather than
reported as an error. -/
theorem C9_odd_photo_dropped (photos : List PhotoInfo) :
    (visual_member_list photos).length = photos.length / 2 ∧
    (photos.length % 2 = 1 →
      visual_member_list photos = visual_member_list photos.dropLast) := by
  constructor
  · simp [visual_member_list, pair_up_length]
  · intro hodd
    unfold visual_member_list
    rw [pair_up_dropLast photos hodd]

/-- C10: the emails command prints exactly the emails of members whose sex
string equals `"M"` case-sensitively and whose email does not contain the
substring `"DNC"`; members without an email are skipped; in particular a
lowercase `"m"` member is excluded — unlike the case-insensitive gender
buckets, which count that same member as Male. -/
theorem C10_male_emails_case_sensitive :
    (∀ (members : List MemberListPerson) (email : String),
      email ∈ print_male_emails members ↔
        ∃ m ∈ members, m.sex = "M" ∧ m.email = some email ∧
          containsSubstr email ("DNC") = false) ∧
    print_male_emails [sample_member 30 ("m") (some ("a@b.c"))] = [] ∧
    print_gender_buckets [sample_member 30 ("m") (some ("a@b.c"))] = (1, 0) ∧
    print_male_emails [sample_member 30 ("M") (some ("aDNCb"))] = [] ∧
    print_male_emails [sample_member 30 ("M") none] = [] ∧
    print_male_emails [sample_member 30 ("M") (some ("a@b.c"))] = ["a@b.c"] := by
  refine ⟨?_, by decide, by decide, by decide, by decide, by decide⟩
  intro members email
  induction members with
  | nil => simp [print_male_emails]
  | cons m ms ih =>
    simp only [print_male_emails] at ih ⊢
    rw [List.filterMap_cons]
    by_cases hs : m.sex = "M"
    · have hif : (if m.sex ≠ "M" then none
          else m.email.filter (fun e => !(containsSubstr e ("DNC")))) =
          m.email.filter (fun e => !(containsSubstr e ("DNC"))) := by
        simp [hs]
      rw [hif]
      cases he : m.email with
      | none =>
        refine Iff.trans ih ?_
        constructor
        · rintro ⟨m', hm', hprops⟩
          exact ⟨m', List.mem_cons_of_mem m hm', hprops⟩
        · rintro ⟨m', hm', h1, h2, h3⟩
          rcases List.mem_cons.mp hm' with rfl | hmem
          · rw [he] at h2
            cases h2
          · exact ⟨m', hmem, h1, h2, h3⟩
      | some e =>
        by_cases hd : containsSubstr e ("DNC") = true
        · have hnone : (some e).filter (fun x => !(containsSubstr x ("DNC"))) = none := by
            simp [Option.filter, hd]
          rw [hnone]
          refine Iff.trans ih ?_
          constructor
          · rintro ⟨m', hm', hprops⟩
            exact ⟨m', List.mem_cons_of_mem m hm', hprops⟩
          · rintro ⟨m', hm', h1, h2, h3⟩
            rcases List.mem_cons.mp hm' with rfl | hmem
            · rw [he] at h2
              cases h2
              rw [hd] at h3
              cases h3
            · exact ⟨m', hmem, h1, h2, h3⟩
        · simp only [Bool.not_eq_true] at hd
          have hsome : (some e).filter (fun x => !(containsSubstr x ("DNC"))) = some e := by
            simp [Option.filter, hd]
          rw [hsome]
          constructor
          · intro hmem
            rcases List.mem_cons.mp hmem with rfl | hmem
            · exact ⟨m, List.mem_cons_self m ms, hs, he, hd⟩
            · rcases ih.mp hmem with ⟨m', hm', hprops⟩
              exact ⟨m', List.mem_cons_of_mem m hm', hprops⟩
          · rintro ⟨m', hm', h1, h2, h3⟩
            rcases List.mem_cons.mp hm' with rfl | hmem
            · rw [he] at h2
              cases h2
              exact List.mem_cons_self _ _
            · exact List.mem_cons_of_mem _ (ih.mpr ⟨m', hmem, h1, h2, h3⟩)
    · have hif : (if m.sex ≠ "M" then none
          else m.email.filter (fun e => !(containsSubstr e ("DNC")))) = none := by
        simp [hs]
      rw [hif]
      refine Iff.trans ih ?_
      constructor
      · rintro ⟨m', hm', hprops⟩
        exact ⟨m', List.mem_cons_of_mem m hm', hprops⟩
      · rintro ⟨m', hm', h1, h2, h3⟩
        rcases List.mem_cons.mp hm' with rfl | hmem
        · exact absurd h1 hs
        · exact ⟨m', hmem, h1, h2, h3⟩

end RsLcr
